import Mathlib

/-!
Shallow embedding of the retrieval pipeline of the rag-system-Education
repository: text extraction (`src/document_processor.py`), chunking and
vector-index construction (`src/vector_store.py`), and retrieval with source
formatting (`src/retrieval_chain.py`).

Modelling conventions:
* Python strings are `String`; the Python primitives `str.strip`, `str.split`,
  `str.lower` and lexicographic string comparison are implemented over the
  underlying character lists (`String.data`), mirroring Python's code-point
  semantics, because the corresponding Lean `String` built-ins do not reduce
  in the kernel.
* Raw file bytes are `Fin 256`.
* Python `float` arithmetic in the image-resize computation is modelled as
  exact arithmetic with `int(...)` truncation as `Nat` floor division.
* Code that the repository only configures (LangChain's
  `RecursiveCharacterTextSplitter`, the FAISS similarity retriever) is not in
  the repository's files; those definitions are modelled from the spec and
  say so in their doc comments.
-/

/-! ## Python string primitives over character lists -/

/-- Python `str.strip()` on the underlying character list: drop whitespace
from both ends. -/
def stripChars (cs : List Char) : List Char :=
  ((cs.dropWhile Char.isWhitespace).reverse.dropWhile Char.isWhitespace).reverse

/-- Python `str.strip()`. -/
def pyStrip (s : String) : String := ⟨stripChars s.data⟩

/-- Python's lexicographic (code-point) `<=` on strings, the order used by
Python's `sorted`. -/
def lexLe : List Char → List Char → Bool
  | [], _ => true
  | _ :: _, [] => false
  | a :: as, b :: bs => if a = b then lexLe as bs else decide (a < b)

/-- Python `sorted` on a list of strings: lexicographic code-point order. -/
def sortStrings (l : List String) : List String :=
  List.insertionSort (fun a b => lexLe a.data b.data = true) l

/-! ## `RetrievalChainManager._format_sources` (retrieval_chain.py:106-129) -/

/-- A retrieved document as `_format_sources` sees it: a LangChain `Document`
whose metadata dictionary may or may not carry a `source` entry. -/
structure RetrievedDoc where
  metadata_source : Option String
deriving DecidableEq

/-- `doc.metadata.get('source', 'Unknown')` (retrieval_chain.py:122). -/
def getSource (d : RetrievedDoc) : String := d.metadata_source.getD "Unknown"

/-- The distinct `source` values of the retrieved documents: the contents of
the Python set built at retrieval_chain.py:120-123. -/
def distinctSources (source_docs : List RetrievedDoc) : List String :=
  (source_docs.map getSource).dedup

/-- `RetrievalChainManager._format_sources` (retrieval_chain.py:106-129).
The Python set of source names is modelled by `distinctSources`; one distinct
source is returned bare (`list(sources)[0]`), several are joined with `", "`
in sorted order, and an empty retrieval list yields the sentinel. -/
def format_sources (source_docs : List RetrievedDoc) : String :=
  if source_docs.isEmpty then "No sources found"
  else
    let sources := distinctSources source_docs
    if sources.length = 1 then sources.headD ""
    else ", ".intercalate (sortStrings sources)

/-! ## Theorems for C2 and C10 -/

lemma format_sources_of_single (docs : List RetrievedDoc) (s : String)
    (hs : distinctSources docs = [s]) : format_sources docs = s := by
  have hne : docs ≠ [] := by
    intro h
    rw [h] at hs
    simp [distinctSources] at hs
  rw [format_sources, if_neg (by simpa using hne)]
  simp only [hs]
  rfl

/-- Claim C2: for every list of retrieved chunks, the source-formatting
operation returns the bare filename when the chunks' `source` attributes form
exactly one distinct value; the distinct filenames joined by `", "` in
lexicographic sorted order when there are two or more distinct values; and
the literal string `"No sources found"` when the retrieved list is empty. -/
theorem C2_format_sources_cases (docs : List RetrievedDoc) :
    (docs = [] → format_sources docs = "No sources found") ∧
    (∀ s, distinctSources docs = [s] → format_sources docs = s) ∧
    (2 ≤ (distinctSources docs).length →
      format_sources docs = ", ".intercalate (sortStrings (distinctSources docs))) := by
  refine ⟨fun h => ?_, format_sources_of_single docs, fun h2 => ?_⟩
  · rw [format_sources, if_pos (by simp [h])]
  · have hne : docs ≠ [] := by
      intro h
      rw [h] at h2
      simp [distinctSources] at h2
    rw [format_sources, if_neg (by simpa using hne)]
    have hlen : (distinctSources docs).length ≠ 1 := by omega
    simp only [if_neg hlen]

/-- Witness for C2 at concrete inputs: empty retrieval, a single repeated
source, and two distinct sources. -/
theorem C2_format_sources_cases_witness :
    format_sources [] = "No sources found" ∧
    format_sources [⟨some "a.pdf"⟩, ⟨some "a.pdf"⟩] = "a.pdf" ∧
    format_sources [⟨some "b.pdf"⟩, ⟨some "a.pdf"⟩] =
      ", ".intercalate (sortStrings (distinctSources [⟨some "b.pdf"⟩, ⟨some "a.pdf"⟩])) :=
  ⟨(C2_format_sources_cases []).1 rfl,
   (C2_format_sources_cases [⟨some "a.pdf"⟩, ⟨some "a.pdf"⟩]).2.1 "a.pdf" (by decide),
   (C2_format_sources_cases [⟨some "b.pdf"⟩, ⟨some "a.pdf"⟩]).2.2 (by decide)⟩

/-- Claim C10: a retrieved chunk whose metadata has no `source` attribute does
not make the formatting fail: the literal `'Unknown'` is substituted for that
chunk's source, and appears among the distinct sources the formatted output
is built from (bare when it is the only one). -/
theorem C10_missing_source_becomes_unknown (docs : List RetrievedDoc)
    (d : RetrievedDoc) (hd : d ∈ docs) (h : d.metadata_source = none) :
    getSource d = "Unknown" ∧ "Unknown" ∈ distinctSources docs ∧
    (distinctSources docs = ["Unknown"] → format_sources docs = "Unknown") := by
  have hu : getSource d = "Unknown" := by rw [getSource, h]; rfl
  refine ⟨hu, ?_, fun hone => ?_⟩
  · rw [distinctSources, List.mem_dedup]
    exact List.mem_map.mpr ⟨d, hd, hu⟩
  · exact format_sources_of_single docs "Unknown" hone

/-- Witness for C10: one sourceless chunk retrieved alongside a normal one. -/
theorem C10_missing_source_becomes_unknown_witness :
    getSource ⟨none⟩ = "Unknown" ∧
    "Unknown" ∈ distinctSources [⟨none⟩, ⟨some "a.pdf"⟩] ∧
    (distinctSources [⟨none⟩, ⟨some "a.pdf"⟩] = ["Unknown"] →
      format_sources [⟨none⟩, ⟨some "a.pdf"⟩] = "Unknown") :=
  C10_missing_source_becomes_unknown [⟨none⟩, ⟨some "a.pdf"⟩] ⟨none⟩
    (by decide) rfl

/-! ## `document_processor.py`: PDF extraction with OCR fallback -/

/-- One page of an opened PDF as the extraction loop sees it
(document_processor.py:40-68): the result of `page.extract_text()` (`none`
models Python `None`) and the text OCR would produce for the page.
`extract_with_ocr` converts every OCR failure into `""`
(document_processor.py:171-187), so a plain string suffices for the latter. -/
structure PDFPage where
  extract_text : Option String
  ocr_text : String
deriving DecidableEq

/-- The OCR-fallback decision of document_processor.py:50: the direct branch
is taken iff `page_text` is truthy and `len(page_text.strip()) > 100`;
otherwise OCR runs. An empty string is falsy in Python, and its stripped
length is 0, so `Option.none` is the only extra case. -/
def pageUsesOCR (page_text : Option String) : Bool :=
  match page_text with
  | none => true
  | some t => !(decide (100 < (pyStrip t).length))

/-- One page's contribution to the extracted text
(document_processor.py:46-68): the direct text plus `"\n"` when the direct
branch is taken; the page's OCR text plus `"\n"` when OCR runs and returns a
truthy (non-empty) string; nothing otherwise. -/
def processPage (page : PDFPage) : String :=
  if pageUsesOCR page.extract_text then
    if page.ocr_text = "" then "" else page.ocr_text ++ "\n"
  else
    (page.extract_text.getD "") ++ "\n"

/-- `extract_text_from_pdf_with_ocr` (document_processor.py:13-113): process
the first `min total_pages max_pages` pages (document_processor.py:29,40) and
strip the concatenated result (document_processor.py:86). -/
def extract_text_from_pdf_with_ocr (pages : List PDFPage)
    (max_pages : Nat := 20) : String :=
  let pages_to_process := min pages.length max_pages
  pyStrip (String.join ((pages.take pages_to_process).map processPage))

/-- `extract_text_from_pdf` (document_processor.py:203-205), a wrapper. -/
def extract_text_from_pdf (pages : List PDFPage) (max_pages : Nat := 20) : String :=
  extract_text_from_pdf_with_ocr pages max_pages

/-- `extract_text_from_docx` (document_processor.py:208-238): the non-empty
paragraph texts joined by newlines. -/
def extract_text_from_docx (paragraphs : List String) : String :=
  "\n".intercalate (paragraphs.filter fun p => !(stripChars p.data).isEmpty)

/-! ## `document_processor.py`: the OCR image-resize step (C9) -/

/-- The image-resize step of `extract_with_ocr`
(document_processor.py:147-153): `max_dimension = 2000`; if the larger
dimension exceeds it, each dimension is scaled by `ratio = 2000 / max(w, h)`
and truncated by `int(...)`. Python float arithmetic is modelled as exact
arithmetic; `int(dim * ratio)` is `dim * 2000 / max w h` in `Nat` floor
division. Images whose dimensions both fit are left unchanged. -/
def resize_new_size (w h : Nat) : Nat × Nat :=
  if 2000 < max w h then
    (w * 2000 / max w h, h * 2000 / max w h)
  else (w, h)

/-! ## `document_processor.py`: TXT decoding (C8) -/

/-- A raw byte of an uploaded file. -/
abbrev Byte := Fin 256

/-- Whether a byte is a UTF-8 continuation byte `10xxxxxx`. -/
def isCont (b : Byte) : Bool := decide (128 ≤ b.val) && decide (b.val < 192)

/-- UTF-8 decoding of a byte list (Python `bytes.decode('utf-8')`); `none`
models `UnicodeDecodeError`. Rejects stray continuation bytes, truncated and
non-minimal (overlong) sequences, surrogates and code points past
`0x10FFFF`. -/
def utf8Decode : List Byte → Option (List Char)
  | [] => some []
  | b :: bs =>
    if b.val < 128 then
      (utf8Decode bs).map (fun cs => Char.ofNat b.val :: cs)
    else if b.val < 194 then none
    else if b.val < 224 then
      match bs with
      | b1 :: rest =>
        if isCont b1 then
          (utf8Decode rest).map
            (fun cs => Char.ofNat ((b.val - 192) * 64 + (b1.val - 128)) :: cs)
        else none
      | [] => none
    else if b.val < 240 then
      match bs with
      | b1 :: b2 :: rest =>
        if isCont b1 && isCont b2 then
          let cp := (b.val - 224) * 4096 + (b1.val - 128) * 64 + (b2.val - 128)
          if cp < 2048 then none
          else if 55296 ≤ cp ∧ cp < 57344 then none
          else (utf8Decode rest).map (fun cs => Char.ofNat cp :: cs)
        else none
      | _ => none
    else if b.val < 245 then
      match bs with
      | b1 :: b2 :: b3 :: rest =>
        if isCont b1 && isCont b2 && isCont b3 then
          let cp := (b.val - 240) * 262144 + (b1.val - 128) * 4096 +
            (b2.val - 128) * 64 + (b3.val - 128)
          if cp < 65536 ∨ 1114111 < cp then none
          else (utf8Decode rest).map (fun cs => Char.ofNat cp :: cs)
        else none
      | _ => none
    else none

/-- Python `bytes.decode('latin-1')`: every byte maps to the code point of
its own value. On genuine bytes this never fails; the guard mirrors the fact
that the code still wraps the call in a catch-all handler
(document_processor.py:250-257). -/
def latin1Decode : List Byte → Option (List Char)
  | [] => some []
  | b :: bs =>
    if b.val < 55296 then (latin1Decode bs).map (fun cs => Char.ofNat b.val :: cs)
    else none

/-- `extract_text_from_txt` (document_processor.py:241-257): decode as UTF-8;
on `UnicodeDecodeError` retry the same bytes as Latin-1; if that also failed,
report the failure (`st.error`) and return `""`. -/
def extract_text_from_txt (bytes : List Byte) : String :=
  match utf8Decode bytes with
  | some cs => ⟨cs⟩
  | none =>
    match latin1Decode bytes with
    | some cs => ⟨cs⟩
    | none => ""

/-! ## `document_processor.py`: dispatch by extension, and
`VectorStoreManager.process_files` -/

/-- Python `str.split(sep)` on character lists for a one-character
separator. -/
def splitOnChar (sep : Char) : List Char → List (List Char)
  | [] => [[]]
  | c :: cs =>
    if c = sep then [] :: splitOnChar sep cs
    else
      match splitOnChar sep cs with
      | [] => [[c]]
      | p :: ps => (c :: p) :: ps

/-- Python `str.split(sep)` on character lists for a two-character separator
`[s0, s1]`: the leftmost occurrence ends a piece and is consumed whole, then
scanning resumes after it (so occurrences never overlap). -/
def splitOn2 (s0 s1 : Char) : List Char → List (List Char)
  | [] => [[]]
  | [c] => [[c]]
  | c :: c1 :: cs =>
    if c = s0 ∧ c1 = s1 then [] :: splitOn2 s0 s1 cs
    else
      match splitOn2 s0 s1 (c1 :: cs) with
      | [] => [[c]]
      | p :: ps => (c :: p) :: ps

/-- Python `str.split(sep)` on character lists. Every separator this program
uses (`'.'` for extensions; `"\n\n"`, `"\n"`, `". "`, `" "` for chunking) has
one or two characters, and those are the cases implemented; an empty
separator is invalid in Python. -/
def splitOnL : List Char → List Char → List (List Char)
  | [s0], t => splitOnChar s0 t
  | [s0, s1], t => splitOn2 s0 s1 t
  | _, t => [t]

/-- Python `filename.split('.')[-1].lower()` (document_processor.py:272). -/
def fileExtension (name : String) : String :=
  ⟨((splitOnL ['.'] name.data).getLastD []).map Char.toLower⟩

/-- The payload of an uploaded file, pre-parsed per format: the page list
`pdfplumber` would produce, the paragraph texts `python-docx` would produce,
or raw bytes for a TXT. `parse_failure` stands for a file its format library
rejects; that exception is caught and turned into `""`
(document_processor.py:98-113, 229-238). -/
inductive FileData
  | pdf (pages : List PDFPage)
  | docx (paragraphs : List String)
  | txt (bytes : List Byte)
  | parse_failure
deriving DecidableEq

/-- An uploaded file: its name and payload. -/
structure UploadedFile where
  name : String
  data : FileData
deriving DecidableEq

/-- `extract_text_from_file` (document_processor.py:260-292): dispatch on the
lower-cased last `.`-component of the filename; unsupported extensions warn
and yield `""`; a payload its format library cannot parse yields `""`.
Returns `(text, filename)`. -/
def extract_text_from_file (file : UploadedFile) (max_pages : Nat := 20) :
    String × String :=
  let text :=
    if fileExtension file.name = "pdf" then
      match file.data with
      | .pdf pages => extract_text_from_pdf pages max_pages
      | _ => ""
    else if fileExtension file.name = "docx" then
      match file.data with
      | .docx paragraphs => extract_text_from_docx paragraphs
      | _ => ""
    else if fileExtension file.name = "txt" then
      match file.data with
      | .txt bytes => extract_text_from_txt bytes
      | _ => ""
    else ""
  (text, file.name)

/-- A LangChain `Document` as built by `process_files`
(vector_store.py:135-138): extracted text plus the source filename. -/
structure Doc where
  page_content : String
  source : String
deriving DecidableEq

set_option linter.unusedVariables false in
/-- `VectorStoreManager.process_files` (vector_store.py:99-143). Its
`max_pages` parameter is accepted (vector_store.py:104) but the extraction
call at vector_store.py:130 is `extract_text_from_file(file)` with no
`max_pages` argument, so extraction always runs with the callee's own default
of 20; the embedding reproduces that call verbatim. A file whose extracted
text is whitespace-only is skipped with a warning. -/
def process_files (uploaded_files : List UploadedFile)
    (max_pages : Nat := 20) : List Doc :=
  uploaded_files.foldr
    (fun file documents =>
      let tf := extract_text_from_file file
      if (stripChars tf.1.data).isEmpty then documents
      else ⟨tf.1, tf.2⟩ :: documents)
    []

/-! ## Theorems for C3 (OCR threshold), C9 (resize), C8 (TXT), C1 (max_pages) -/

/-- Claim C3, counterexample: a page whose directly extracted text is 101
characters (99 letters and two trailing spaces) exceeds 100 characters, yet
OCR is still invoked, because the threshold test at document_processor.py:50
measures the whitespace-stripped text. -/
theorem C3_counterexample_ocr_despite_101_chars :
    100 < (String.mk (List.replicate 99 'a' ++ [' ', ' '])).length ∧
    pageUsesOCR (some (String.mk (List.replicate 99 'a' ++ [' ', ' ']))) = true :=
  ⟨by decide, by decide⟩

/-- Claim C3, amended: for every page of a processed PDF, the OCR fallback is
invoked iff direct extraction produced nothing (Python `None`) or the
whitespace-stripped extracted text has length at most 100; for a page whose
stripped direct text exceeds 100 characters OCR is never invoked and the
direct text (with a trailing newline) is used. -/
theorem C3_amended_ocr_iff_stripped_at_most_100 (page : PDFPage) :
    (pageUsesOCR page.extract_text = true ↔
      page.extract_text = none ∨
        ∃ t, page.extract_text = some t ∧ (pyStrip t).length ≤ 100) ∧
    (∀ t, page.extract_text = some t → 100 < (pyStrip t).length →
      processPage page = t ++ "\n") := by
  constructor
  · cases h : page.extract_text with
    | none => simp [pageUsesOCR]
    | some t =>
      simp only [pageUsesOCR, Bool.not_eq_true', decide_eq_false_iff_not, Nat.not_lt,
        reduceCtorEq, false_or, Option.some.injEq]
      constructor
      · intro hle
        exact ⟨t, rfl, hle⟩
      · rintro ⟨t', ht', hle⟩
        cases ht'
        exact hle
  · intro t ht hgt
    have hocr : pageUsesOCR page.extract_text = false := by
      rw [ht]
      simp [pageUsesOCR, hgt]
    rw [processPage, hocr]
    simp [ht]

/-- Claim C9, counterexample: a 4000-by-1001 image triggers the resize and
yields 2000-by-500 (the ratio 2000/4000 = 0.5 is exact even in binary
floating point, so Python computes exactly these values); the width-to-height
ratio is not preserved, since 4000 · 500 ≠ 1001 · 2000. -/
theorem C9_counterexample_aspect_ratio_changed :
    resize_new_size 4000 1001 = (2000, 500) ∧
    ¬ 4000 * (resize_new_size 4000 1001).2 = 1001 * (resize_new_size 4000 1001).1 :=
  ⟨by decide, by decide⟩

/-- Claim C9, amended: an image whose dimensions are both at most 2000 pixels
is not resized; if either dimension exceeds 2000, both resulting dimensions
are at most 2000 and each is the floor of the exact proportional rescale
`dim · 2000 / max w h` — the aspect ratio is preserved up to truncation of
each dimension to a whole pixel, not exactly. -/
theorem C9_amended_resize_bounds (w h : Nat) :
    (max w h ≤ 2000 → resize_new_size w h = (w, h)) ∧
    (2000 < max w h →
      (resize_new_size w h).1 ≤ 2000 ∧ (resize_new_size w h).2 ≤ 2000 ∧
      (resize_new_size w h).1 * max w h ≤ w * 2000 ∧
      w * 2000 < ((resize_new_size w h).1 + 1) * max w h ∧
      (resize_new_size w h).2 * max w h ≤ h * 2000 ∧
      h * 2000 < ((resize_new_size w h).2 + 1) * max w h) := by
  constructor
  · intro hle
    rw [resize_new_size, if_neg (by omega)]
  · intro hm
    have hm0 : 0 < max w h := by omega
    rw [resize_new_size, if_pos hm]
    refine ⟨?_, ?_, Nat.div_mul_le_self _ _, ?_, Nat.div_mul_le_self _ _, ?_⟩
    · calc w * 2000 / max w h ≤ max w h * 2000 / max w h :=
            Nat.div_le_div_right (Nat.mul_le_mul_right 2000 (le_max_left w h))
        _ = 2000 := Nat.mul_div_cancel_left 2000 hm0
    · calc h * 2000 / max w h ≤ max w h * 2000 / max w h :=
            Nat.div_le_div_right (Nat.mul_le_mul_right 2000 (le_max_right w h))
        _ = 2000 := Nat.mul_div_cancel_left 2000 hm0
    · have h1 := Nat.div_add_mod (w * 2000) (max w h)
      have h2 := Nat.mod_lt (w * 2000) hm0
      calc w * 2000 = max w h * (w * 2000 / max w h) + w * 2000 % max w h := h1.symm
        _ < max w h * (w * 2000 / max w h) + max w h := by omega
        _ = (w * 2000 / max w h + 1) * max w h := by ring
    · have h1 := Nat.div_add_mod (h * 2000) (max w h)
      have h2 := Nat.mod_lt (h * 2000) hm0
      calc h * 2000 = max w h * (h * 2000 / max w h) + h * 2000 % max w h := h1.symm
        _ < max w h * (h * 2000 / max w h) + max w h := by omega
        _ = (h * 2000 / max w h + 1) * max w h := by ring

lemma latin1Decode_total (bytes : List Byte) :
    latin1Decode bytes = some (bytes.map fun b => Char.ofNat b.val) := by
  induction bytes with
  | nil => rfl
  | cons b bs ih =>
    have hb : b.val < 55296 := lt_of_lt_of_le b.isLt (by norm_num)
    simp [latin1Decode, if_pos hb, ih]

/-- Claim C8: TXT extraction decodes the bytes as UTF-8 first; if that decode
fails it retries the same bytes as Latin-1; if that also failed it reports
extraction failure, returning empty text instead of raising. (On bytes the
Latin-1 retry always succeeds — `latin1Decode_total` — so the final clause is
vacuously guarded, exactly as in the Python code, whose catch-all around the
Latin-1 decode is unreachable for decode errors.) -/
theorem C8_txt_utf8_then_latin1_fallback (bytes : List Byte) :
    (∀ cs, utf8Decode bytes = some cs → extract_text_from_txt bytes = ⟨cs⟩) ∧
    (utf8Decode bytes = none →
      extract_text_from_txt bytes = ⟨bytes.map fun b => Char.ofNat b.val⟩) ∧
    (utf8Decode bytes = none → latin1Decode bytes = none →
      extract_text_from_txt bytes = "") := by
  refine ⟨fun cs h => ?_, fun h => ?_, fun h hl => ?_⟩
  · simp only [extract_text_from_txt, h]
  · simp only [extract_text_from_txt, h, latin1Decode_total]
  · simp only [extract_text_from_txt, h, hl]

/-- A PDF page whose direct text is `n` copies of `'a'` (for `n > 100` the
direct branch is taken and OCR is not consulted). -/
def testPage (n : Nat) : PDFPage := ⟨some ⟨List.replicate n 'a'⟩, ""⟩

/-- A ten-page PDF upload, every page with ample (101 characters) direct
text. -/
def testPDF : UploadedFile :=
  ⟨"test.pdf", .pdf (List.replicate 10 (testPage 101))⟩

set_option maxRecDepth 40000 in
/-- Claim C1 (code bug): `process_files` accepts `max_pages` but the
extraction call at vector_store.py:130 passes no `max_pages`, so the callee's
default of 20 applies regardless. Honouring `max_pages = 5` on the ten-page
test PDF, extraction stops after five pages (5 · 102 − 1 = 509 characters);
`process_files` called with `max_pages = 5` instead yields the full ten-page
text (10 · 102 − 1 = 1019 characters). -/
theorem C1_max_pages_not_forwarded :
    (extract_text_from_file testPDF 5).1.length = 509 ∧
    (process_files [testPDF] 5).map (fun d => (d.page_content.length, d.source)) =
      [(1019, "test.pdf")] :=
  ⟨by decide, by decide⟩

/-! ## The chunker (`VectorStoreManager.create_chunks`, vector_store.py:15-37)

`create_chunks` configures LangChain's `RecursiveCharacterTextSplitter` with
`separators=["\n\n", "\n", ". ", " "]`, `chunk_size=700` and
`chunk_overlap=50` (vector_store.py:17-18,30-34) and calls
`split_documents`. The splitter's own code is LangChain's, not a file of
this repository, so the split and merge phases below are modelled from the
spec; the policy constants and the per-document application are the
repository's. -/

/-- `self.chunk_size = 700` (vector_store.py:17). -/
def chunk_size : Nat := 700

/-- `self.chunk_overlap = 50` (vector_store.py:18). -/
def chunk_overlap : Nat := 50

/-- The priority-ordered separator list (vector_store.py:31): paragraph
break, line break, sentence-terminal period plus space, plain space. -/
def separators : List (List Char) := [['\n', '\n'], ['\n'], ['.', ' '], [' ']]

/-- Modelled from the spec: the recursive split phase of the text splitter.
A text at or under the size limit is one unit ("prefer the largest
semantically meaningful boundary that keeps a chunk at or under the size
limit"); an oversized text is split on the highest-priority separator and
each piece is split further with the remaining separators. -/
def splitUnits : List (List Char) → List Char → List (List Char)
  | [], t => [t]
  | sep :: rest, t =>
    if t.length ≤ chunk_size then [t]
    else (splitOnL sep t).flatMap (splitUnits rest)

/-- The unconditional full split on every separator in priority order: its
elements are the atomic units of a text, the segments delimited by the
priority separators. -/
def atomicUnits : List (List Char) → List Char → List (List Char)
  | [], t => [t]
  | sep :: rest, t => (splitOnL sep t).flatMap (atomicUnits rest)

/-- The last `n` characters of a text: the overlap seed. -/
def takeRight (l : List Char) (n : Nat) : List Char := l.drop (l.length - n)

/-- Modelled from the spec: the merge phase of the text splitter. Units are
accumulated greedily into the current chunk while it stays at or under
`chunk_size`; when a unit does not fit, the current chunk is emitted and the
next chunk starts with an overlap seed — the last `chunk_overlap` characters
of the emitted chunk, capped (`min`) so the new chunk still respects
`chunk_size` whenever the incoming unit itself does. -/
def mergeLoop : List (List Char) → List Char → List (List Char)
  | [], cur => [cur]
  | u :: us, cur =>
    if (cur ++ u).length ≤ chunk_size then mergeLoop us (cur ++ u)
    else
      cur :: mergeLoop us
        (takeRight cur (min chunk_overlap (chunk_size - u.length)) ++ u)

/-- Modelled from the spec: chunking one text is the recursive split followed
by the merge. -/
def splitText (t : List Char) : List (List Char) :=
  match splitUnits separators t with
  | [] => []
  | u :: us => mergeLoop us u

/-- A chunk: a text segment tagged with the `source` filename inherited from
its parent document. -/
structure Chunk where
  text : List Char
  source : String
deriving DecidableEq

/-- `split_documents`: each document is chunked separately and every chunk
inherits the document's metadata (its `source`). -/
def splitDocument (d : Doc) : List Chunk :=
  (splitText d.page_content.data).map (fun t => ⟨t, d.source⟩)

/-- `VectorStoreManager.create_chunks` (vector_store.py:20-37): the
configured splitter applied to every document. -/
def create_chunks (documents : List Doc) : List Chunk :=
  documents.flatMap splitDocument

/-! ## Chunker lemmas and theorems for C5 -/

lemma takeRight_length (l : List Char) (n : Nat) :
    (takeRight l n).length = min n l.length := by
  simp only [takeRight, List.length_drop]
  omega

lemma takeRight_zero (l : List Char) : takeRight l 0 = [] := by
  simp [takeRight, List.drop_length]

lemma splitUnits_le_or_atomic (seps : List (List Char)) :
    ∀ (t : List Char), ∀ u ∈ splitUnits seps t,
      u.length ≤ chunk_size ∨ u ∈ atomicUnits seps t := by
  induction seps with
  | nil =>
    intro t u hu
    right
    simpa [splitUnits, atomicUnits] using hu
  | cons sep rest ih =>
    intro t u hu
    rw [splitUnits] at hu
    by_cases hle : t.length ≤ chunk_size
    · rw [if_pos hle] at hu
      rw [List.mem_singleton] at hu
      subst hu
      exact Or.inl hle
    · rw [if_neg hle] at hu
      obtain ⟨p, hp, hup⟩ := List.mem_flatMap.mp hu
      rcases ih p u hup with h | h
      · exact Or.inl h
      · right
        rw [atomicUnits]
        exact List.mem_flatMap.mpr ⟨p, hp, h⟩

lemma mergeLoop_bound (P : List Char → Prop) :
    ∀ (us : List (List Char)) (cur : List Char),
      (cur.length ≤ chunk_size ∨ P cur) →
      (∀ u ∈ us, u.length ≤ chunk_size ∨ P u) →
      ∀ c ∈ mergeLoop us cur, c.length ≤ chunk_size ∨ P c := by
  intro us
  induction us with
  | nil =>
    intro cur hcur _ c hc
    rw [mergeLoop, List.mem_singleton] at hc
    subst hc
    exact hcur
  | cons u us ih =>
    intro cur hcur hus c hc
    rw [mergeLoop] at hc
    by_cases hfit : (cur ++ u).length ≤ chunk_size
    · rw [if_pos hfit] at hc
      exact ih (cur ++ u) (Or.inl hfit)
        (fun v hv => hus v (List.mem_cons_of_mem u hv)) c hc
    · rw [if_neg hfit] at hc
      rcases List.mem_cons.mp hc with rfl | hc'
      · exact hcur
      · refine ih _ ?_ (fun v hv => hus v (List.mem_cons_of_mem u hv)) c hc'
        by_cases hul : u.length ≤ chunk_size
        · left
          rw [List.length_append, takeRight_length]
          simp only [chunk_size, chunk_overlap] at *
          omega
        · have hz : chunk_size - u.length = 0 := by omega
          rw [hz, Nat.min_zero, takeRight_zero, List.nil_append]
          exact hus u (List.mem_cons_self u us)

lemma splitText_bound (t : List Char) :
    ∀ c ∈ splitText t, c.length ≤ chunk_size ∨ c ∈ atomicUnits separators t := by
  intro c hc
  rw [splitText] at hc
  cases hu : splitUnits separators t with
  | nil => rw [hu] at hc; simp at hc
  | cons u us =>
    rw [hu] at hc
    have h1 := splitUnits_le_or_atomic separators t
    refine mergeLoop_bound (· ∈ atomicUnits separators t) us u ?_ ?_ c hc
    · exact h1 u (hu ▸ List.mem_cons_self u us)
    · intro v hv
      exact h1 v (hu ▸ List.mem_cons_of_mem u hv)

lemma mergeLoop_ne_nil (us : List (List Char)) (cur : List Char) :
    mergeLoop us cur ≠ [] := by
  induction us generalizing cur with
  | nil => simp [mergeLoop]
  | cons u us ih =>
    rw [mergeLoop]
    by_cases hfit : (cur ++ u).length ≤ chunk_size
    · rw [if_pos hfit]
      exact ih _
    · rw [if_neg hfit]
      simp

lemma mergeLoop_head_seeded (us : List (List Char)) :
    ∀ (cur : List Char) (b : List Char),
      b ∈ (mergeLoop us cur).head? → cur <+: b := by
  induction us with
  | nil =>
    intro cur b hb
    rw [mergeLoop] at hb
    simp only [List.head?_cons, Option.mem_def, Option.some.injEq] at hb
    subst hb
    exact List.prefix_refl cur
  | cons u us ih =>
    intro cur b hb
    rw [mergeLoop] at hb
    by_cases hfit : (cur ++ u).length ≤ chunk_size
    · rw [if_pos hfit] at hb
      exact List.IsPrefix.trans (List.prefix_append cur u) (ih _ b hb)
    · rw [if_neg hfit] at hb
      simp only [List.head?_cons, Option.mem_def, Option.some.injEq] at hb
      subst hb
      exact List.prefix_refl cur

/-- The overlap relation between consecutive chunks: the next chunk starts
with the 50-character suffix of the previous one, except when the previous
chunk is shorter than 50 characters or the next chunk is completely full. -/
def overlapRel (c1 c2 : List Char) : Prop :=
  takeRight c1 chunk_overlap <+: c2 ∨
    c1.length < chunk_overlap ∨ chunk_size ≤ c2.length

lemma mergeLoop_chain (us : List (List Char)) :
    ∀ cur, List.Chain' overlapRel (mergeLoop us cur) := by
  induction us with
  | nil =>
    intro cur
    rw [mergeLoop]
    exact List.chain'_singleton cur
  | cons u us ih =>
    intro cur
    rw [mergeLoop]
    by_cases hfit : (cur ++ u).length ≤ chunk_size
    · rw [if_pos hfit]
      exact ih _
    · rw [if_neg hfit]
      refine List.chain'_cons'.mpr ⟨?_, ih _⟩
      intro b hb
      have hpre := mergeLoop_head_seeded us _ b hb
      by_cases hcl : cur.length < chunk_overlap
      · exact Or.inr (Or.inl hcl)
      · by_cases hus : u.length + chunk_overlap ≤ chunk_size
        · left
          have hmin : min chunk_overlap (chunk_size - u.length) = chunk_overlap := by
            simp only [chunk_size, chunk_overlap] at *
            omega
          rw [hmin] at hpre
          exact List.IsPrefix.trans (List.prefix_append _ u) hpre
        · right; right
          have hlen := List.IsPrefix.length_le hpre
          rw [List.length_append, takeRight_length] at hlen
          simp only [chunk_size, chunk_overlap] at *
          omega

/-- Claim C5, counterexample input: two 700-character paragraphs separated by
a paragraph break. -/
def c5text : List Char :=
  List.replicate 700 'a' ++ '\n' :: '\n' :: List.replicate 700 'b'

set_option maxRecDepth 40000 in
/-- Claim C5, counterexample: chunking a document made of two 700-character
paragraphs yields exactly those two chunks, and the second chunk does not
start with the 50-character suffix of the first — the chunks share no
50-character overlap, because adding any overlap to a 700-character unit
would break the size limit. -/
theorem C5_counterexample_overlap_not_50 :
    splitText c5text =
      [List.replicate 700 'a', List.replicate 700 'b'] ∧
    ¬ takeRight (List.replicate 700 'a') chunk_overlap <+:
        List.replicate 700 'b' :=
  ⟨by decide, by decide⟩

/-- Claim C5, amended: every chunk of every document has at most
`chunk_size = 700` characters unless that chunk is a single atomic unit (a
segment delimited by the priority separators) that itself exceeds 700; and
consecutive chunks of the same document overlap by the 50-character suffix of
the earlier chunk, except when the earlier chunk is shorter than 50
characters or the later chunk is full (at least 700 characters), where the
overlap is capped to keep the size limit. -/
theorem C5_amended_chunk_size_and_overlap (documents : List Doc) :
    (∀ c ∈ create_chunks documents,
      c.text.length ≤ chunk_size ∨
        ∃ d ∈ documents, c.text ∈ atomicUnits separators d.page_content.data) ∧
    (∀ d ∈ documents,
      List.Chain' overlapRel ((splitDocument d).map Chunk.text)) := by
  constructor
  · intro c hc
    obtain ⟨d, hd, hcd⟩ := List.mem_flatMap.mp hc
    obtain ⟨t, ht, rfl⟩ := List.mem_map.mp hcd
    rcases splitText_bound _ t ht with h | h
    · exact Or.inl h
    · exact Or.inr ⟨d, hd, h⟩
  · intro d _
    have hmap : (splitDocument d).map Chunk.text = splitText d.page_content.data := by
      rw [splitDocument, List.map_map]
      exact List.map_id _
    rw [hmap, splitText]
    cases splitUnits separators d.page_content.data with
    | nil => exact List.chain'_nil
    | cons u us => exact mergeLoop_chain us u

/-! ## Chunk provenance lemmas and the theorem for C7 -/

lemma splitOnChar_chars_subset (sep : Char) :
    ∀ (t : List Char), ∀ p ∈ splitOnChar sep t, ∀ c ∈ p, c ∈ t := by
  intro t
  induction t with
  | nil =>
    intro p hp c hc
    rw [splitOnChar, List.mem_singleton] at hp
    subst hp
    simp at hc
  | cons a cs ih =>
    intro p hp c hc
    rw [splitOnChar] at hp
    by_cases ha : a = sep
    · rw [if_pos ha] at hp
      rcases List.mem_cons.mp hp with rfl | hp'
      · simp at hc
      · exact List.mem_cons_of_mem a (ih p hp' c hc)
    · rw [if_neg ha] at hp
      cases hr : splitOnChar sep cs with
      | nil =>
        rw [hr, List.mem_singleton] at hp
        subst hp
        rw [List.mem_singleton] at hc
        rw [hc]
        exact List.mem_cons_self a cs
      | cons p0 ps =>
        rw [hr] at hp
        rcases List.mem_cons.mp hp with rfl | hp'
        · rcases List.mem_cons.mp hc with rfl | hc'
          · exact List.mem_cons_self c cs
          · exact List.mem_cons_of_mem a
              (ih p0 (hr ▸ List.mem_cons_self p0 ps) c hc')
        · exact List.mem_cons_of_mem a
            (ih p (hr ▸ List.mem_cons_of_mem p0 hp') c hc)

lemma splitOn2_chars_subset (s0 s1 : Char) :
    ∀ (t : List Char), ∀ p ∈ splitOn2 s0 s1 t, ∀ c ∈ p, c ∈ t := by
  intro t
  induction t using splitOn2.induct s0 s1 with
  | case1 =>
    intro p hp c hc
    rw [splitOn2, List.mem_singleton] at hp
    subst hp
    simp at hc
  | case2 a =>
    intro p hp c hc
    rw [splitOn2, List.mem_singleton] at hp
    subst hp
    exact hc
  | case3 a a1 cs hmatch ih =>
    intro p hp c hc
    rw [splitOn2, if_pos hmatch] at hp
    rcases List.mem_cons.mp hp with rfl | hp'
    · simp at hc
    · exact List.mem_cons_of_mem a (List.mem_cons_of_mem a1 (ih p hp' c hc))
  | case4 a a1 cs hmatch hr ih =>
    intro p hp c hc
    rw [splitOn2, if_neg hmatch, hr, List.mem_singleton] at hp
    subst hp
    rw [List.mem_singleton] at hc
    rw [hc]
    exact List.mem_cons_self a _
  | case5 a a1 cs hmatch p0 ps hr ih =>
    intro p hp c hc
    rw [splitOn2, if_neg hmatch, hr] at hp
    rcases List.mem_cons.mp hp with rfl | hp'
    · rcases List.mem_cons.mp hc with rfl | hc'
      · exact List.mem_cons_self c _
      · exact List.mem_cons_of_mem a
          (ih p0 (hr ▸ List.mem_cons_self p0 ps) c hc')
    · exact List.mem_cons_of_mem a
        (ih p (hr ▸ List.mem_cons_of_mem p0 hp') c hc)

lemma splitOnL_chars_subset (sep : List Char) (t : List Char) :
    ∀ p ∈ splitOnL sep t, ∀ c ∈ p, c ∈ t := by
  cases sep with
  | nil =>
    intro p hp c hc
    simp only [splitOnL, List.mem_singleton] at hp
    subst hp
    exact hc
  | cons s0 rest =>
    cases rest with
    | nil => exact splitOnChar_chars_subset s0 t
    | cons s1 rest2 =>
      cases rest2 with
      | nil => exact splitOn2_chars_subset s0 s1 t
      | cons s2 rest3 =>
        intro p hp c hc
        simp only [splitOnL, List.mem_singleton] at hp
        subst hp
        exact hc

lemma splitUnits_chars_subset (seps : List (List Char)) :
    ∀ (t : List Char), ∀ u ∈ splitUnits seps t, ∀ c ∈ u, c ∈ t := by
  induction seps with
  | nil =>
    intro t u hu c hc
    rw [splitUnits, List.mem_singleton] at hu
    subst hu
    exact hc
  | cons sep rest ih =>
    intro t u hu c hc
    rw [splitUnits] at hu
    by_cases hle : t.length ≤ chunk_size
    · rw [if_pos hle, List.mem_singleton] at hu
      subst hu
      exact hc
    · rw [if_neg hle] at hu
      obtain ⟨p, hp, hup⟩ := List.mem_flatMap.mp hu
      exact splitOnL_chars_subset sep t p hp c (ih p u hup c hc)

lemma takeRight_subset (l : List Char) (n : Nat) :
    ∀ c ∈ takeRight l n, c ∈ l := by
  intro c hc
  exact (List.drop_sublist _ l).mem hc

lemma mergeLoop_chars_subset :
    ∀ (us : List (List Char)) (cur : List Char), ∀ c ∈ mergeLoop us cur,
      ∀ ch ∈ c, ch ∈ cur ∨ ∃ u ∈ us, ch ∈ u := by
  intro us
  induction us with
  | nil =>
    intro cur c hc ch hch
    rw [mergeLoop, List.mem_singleton] at hc
    subst hc
    exact Or.inl hch
  | cons u us ih =>
    intro cur c hc ch hch
    rw [mergeLoop] at hc
    by_cases hfit : (cur ++ u).length ≤ chunk_size
    · rw [if_pos hfit] at hc
      rcases ih (cur ++ u) c hc ch hch with h | ⟨v, hv, hchv⟩
      · rcases List.mem_append.mp h with h' | h'
        · exact Or.inl h'
        · exact Or.inr ⟨u, List.mem_cons_self u us, h'⟩
      · exact Or.inr ⟨v, List.mem_cons_of_mem u hv, hchv⟩
    · rw [if_neg hfit] at hc
      rcases List.mem_cons.mp hc with rfl | hc'
      · exact Or.inl hch
      · rcases ih _ c hc' ch hch with h | ⟨v, hv, hchv⟩
        · rcases List.mem_append.mp h with h' | h'
          · exact Or.inl (takeRight_subset cur _ ch h')
          · exact Or.inr ⟨u, List.mem_cons_self u us, h'⟩
        · exact Or.inr ⟨v, List.mem_cons_of_mem u hv, hchv⟩

lemma splitText_chars_subset (t : List Char) :
    ∀ c ∈ splitText t, ∀ ch ∈ c, ch ∈ t := by
  intro c hc ch hch
  rw [splitText] at hc
  cases hu : splitUnits separators t with
  | nil => rw [hu] at hc; simp at hc
  | cons u us =>
    rw [hu] at hc
    have hsub := splitUnits_chars_subset separators t
    rcases mergeLoop_chars_subset us u c hc ch hch with h | ⟨v, hv, hchv⟩
    · exact hsub u (hu ▸ List.mem_cons_self u us) ch h
    · exact hsub v (hu ▸ List.mem_cons_of_mem u hv) ch hchv

lemma process_files_mem (files : List UploadedFile) (mp : Nat) (d : Doc)
    (hd : d ∈ process_files files mp) :
    ∃ f ∈ files, d.source = f.name ∧
      d.page_content = (extract_text_from_file f).1 := by
  induction files with
  | nil => simp [process_files] at hd
  | cons f fs ih =>
    rw [process_files, List.foldr_cons] at hd
    by_cases hemp : (stripChars (extract_text_from_file f).1.data).isEmpty
    · rw [if_pos hemp] at hd
      obtain ⟨g, hg, h⟩ := ih hd
      exact ⟨g, List.mem_cons_of_mem f hg, h⟩
    · rw [if_neg hemp] at hd
      rcases List.mem_cons.mp hd with rfl | hd'
      · exact ⟨f, List.mem_cons_self f fs, rfl, rfl⟩
      · obtain ⟨g, hg, h⟩ := ih hd'
        exact ⟨g, List.mem_cons_of_mem f hg, h⟩

/-- Claim C7: every chunk the pipeline produces inherits as its `source`,
verbatim, the `source` of the single document it was split from — which in
turn is the filename of the uploaded file whose extracted text that document
holds — and every character of the chunk's text occurs in that one document's
text: no chunk draws text from two documents. -/
theorem C7_chunk_source_is_parent_filename (files : List UploadedFile)
    (max_pages : Nat) (c : Chunk)
    (hc : c ∈ create_chunks (process_files files max_pages)) :
    ∃ d ∈ process_files files max_pages,
      c.source = d.source ∧ c ∈ splitDocument d ∧
      (∀ ch ∈ c.text, ch ∈ d.page_content.data) ∧
      ∃ f ∈ files, d.source = f.name ∧
        d.page_content = (extract_text_from_file f).1 := by
  obtain ⟨d, hd, hcd⟩ := List.mem_flatMap.mp hc
  obtain ⟨t, ht, rfl⟩ := List.mem_map.mp hcd
  refine ⟨d, hd, rfl, List.mem_map.mpr ⟨t, ht, rfl⟩, ?_, ?_⟩
  · intro ch hch
    exact splitText_chars_subset _ t ht ch hch
  · exact process_files_mem files max_pages d hd

/-- Witness for C7: a single uploaded TXT file whose two characters end up in
one chunk tagged with that file's name. -/
theorem C7_chunk_source_is_parent_filename_witness :
    ∃ d ∈ process_files [⟨"a.txt", .txt [104, 105]⟩] 20,
      Chunk.source ⟨"hi".data, "a.txt"⟩ = d.source ∧
      Chunk.mk "hi".data "a.txt" ∈ splitDocument d ∧
      (∀ ch ∈ Chunk.text ⟨"hi".data, "a.txt"⟩, ch ∈ d.page_content.data) ∧
      ∃ f ∈ [(⟨"a.txt", .txt [104, 105]⟩ : UploadedFile)], d.source = f.name ∧
        d.page_content = (extract_text_from_file f).1 :=
  C7_chunk_source_is_parent_filename [⟨"a.txt", .txt [104, 105]⟩] 20
    ⟨"hi".data, "a.txt"⟩ (by decide)

/-! ## `VectorStoreManager.create_vector_database` (vector_store.py:39-97) -/

/-- A FAISS index as `FAISS.from_documents` builds it: one (chunk, embedding
vector) entry per chunk, in one pass. -/
structure FAISSIndex where
  entries : List (Chunk × List Int)
deriving DecidableEq

/-- Modelled from the spec: embedding every chunk through the injected
embedding capability; an embedding-service error is an exception
(`Except.error`) that aborts the whole batch embed. -/
def embedChunks (embedder : List Char → Except String (List Int)) :
    List Chunk → Except String (List (Chunk × List Int))
  | [] => .ok []
  | c :: cs =>
    match embedder c.text with
    | .error e => .error e
    | .ok v =>
      match embedChunks embedder cs with
      | .error e => .error e
      | .ok entries => .ok ((c, v) :: entries)

/-- Modelled from the spec: `FAISS.from_documents(chunks, embedding=...)`
(vector_store.py:83) builds the index over all (chunk, vector) pairs in one
batch pass, or raises the embedding service's error. -/
def faiss_from_documents (chunks : List Chunk)
    (embedder : List Char → Except String (List Int)) :
    Except String FAISSIndex :=
  match embedChunks embedder chunks with
  | .error e => .error e
  | .ok entries => .ok ⟨entries⟩

/-- `VectorStoreManager.create_vector_database` (vector_store.py:39-97): the
whole body runs inside one `try`. An empty chunk list reports an error and
returns `(None, 0)` (vector_store.py:66-68); an exception — the embedding
service failing inside `FAISS.from_documents` — is caught, reported, and
`(None, 0)` returned (vector_store.py:93-97); otherwise the built index and
the chunk count are returned. The Lean function is total: no exception
reaches the caller. -/
def create_vector_database (embedder : List Char → Except String (List Int))
    (documents : List Doc) : Option FAISSIndex × Nat :=
  let chunks := create_chunks documents
  if chunks.isEmpty then (none, 0)
  else
    match faiss_from_documents chunks embedder with
    | .ok vector_db => (some vector_db, chunks.length)
    | .error _ => (none, 0)

lemma embedChunks_ok_fst (embedder : List Char → Except String (List Int)) :
    ∀ (chunks : List Chunk) (entries : List (Chunk × List Int)),
      embedChunks embedder chunks = .ok entries →
      entries.map Prod.fst = chunks := by
  intro chunks
  induction chunks with
  | nil =>
    intro entries h
    rw [embedChunks] at h
    cases h
    rfl
  | cons c cs ih =>
    intro entries h
    rw [embedChunks] at h
    cases he : embedder c.text with
    | error e => rw [he] at h; cases h
    | ok v =>
      rw [he] at h
      cases hr : embedChunks embedder cs with
      | error e => rw [hr] at h; cases h
      | ok es =>
        rw [hr] at h
        cases h
        simp [ih es hr]

/-- Claim C4: a failing index build — an empty chunk set, or an exception
from the embedding service during index construction — yields no index
together with a chunk count of 0 (a diagnostic is printed); the operation is
a total function, so no exception propagates to the caller; and a returned
index is never partial: its entries are exactly the chunk list, in order,
each paired with its embedding. -/
theorem C4_failed_build_yields_no_index
    (embedder : List Char → Except String (List Int)) (documents : List Doc) :
    (create_chunks documents = [] →
      create_vector_database embedder documents = (none, 0)) ∧
    (∀ e, faiss_from_documents (create_chunks documents) embedder = .error e →
      create_vector_database embedder documents = (none, 0)) ∧
    ((create_vector_database embedder documents).1 = none →
      (create_vector_database embedder documents).2 = 0) ∧
    (∀ db, (create_vector_database embedder documents).1 = some db →
      db.entries.map Prod.fst = create_chunks documents ∧
      (create_vector_database embedder documents).2 =
        (create_chunks documents).length) := by
  refine ⟨fun hnil => ?_, fun e he => ?_, ?_, ?_⟩
  · rw [create_vector_database, if_pos (by simp [hnil])]
  · rw [create_vector_database]
    by_cases hemp : (create_chunks documents).isEmpty
    · rw [if_pos hemp]
    · rw [if_neg hemp, he]
  · rw [create_vector_database]
    by_cases hemp : (create_chunks documents).isEmpty
    · rw [if_pos hemp]
      intro
      rfl
    · rw [if_neg hemp]
      cases hf : faiss_from_documents (create_chunks documents) embedder with
      | ok db => intro h; cases h
      | error e => intro; rfl
  · intro db
    rw [create_vector_database]
    by_cases hemp : (create_chunks documents).isEmpty
    · rw [if_pos hemp]
      intro h
      cases h
    · rw [if_neg hemp]
      cases hf : faiss_from_documents (create_chunks documents) embedder with
      | ok db' =>
        intro h
        cases h
        rw [faiss_from_documents] at hf
        cases hr : embedChunks embedder (create_chunks documents) with
        | error e => rw [hr] at hf; cases hf
        | ok es =>
          rw [hr] at hf
          cases hf
          exact ⟨embedChunks_ok_fst embedder _ es hr, rfl⟩
      | error e =>
        intro h
        cases h

/-! ## Retrieval (`RetrievalChainManager.create_chain`,
retrieval_chain.py:13-29) -/

/-- `self.k = 6` — the number of chunks to retrieve (retrieval_chain.py:16). -/
def retrieval_k : Nat := 6

/-- Squared Euclidean distance between two embedding vectors: FAISS's L2
metric (the square root is monotone, so ranking by the square is the same
ranking). -/
def sqDist (v w : List Int) : Int :=
  (List.zipWith (fun a b => (a - b) * (a - b)) v w).sum

/-- Modelled from the spec: the similarity retriever `create_chain`
configures with `search_type="similarity"` and `search_kwargs={"k": self.k}`
(retrieval_chain.py:26-29) ranks the index entries by ascending embedding
distance to the query embedding. -/
def rankedEntries (index : FAISSIndex) (q : List Int) :
    List (Chunk × List Int) :=
  List.insertionSort (fun a b => sqDist a.2 q ≤ sqDist b.2 q) index.entries

/-- Modelled from the spec: similarity retrieval returns the first `k` ranked
chunks (most similar first). -/
def retrieve (index : FAISSIndex) (q : List Int) (k : Nat) : List Chunk :=
  ((rankedEntries index q).take k).map Prod.fst

/-- Claim C6: retrieval with the configured `k = 6` returns at most 6 chunks,
and they are ranked by non-decreasing embedding distance to the query: the
retrieval result is, in order, the chunks of the first 6 ranked entries,
whose distances form a non-decreasing list. -/
theorem C6_retrieval_at_most_six_sorted (index : FAISSIndex) (q : List Int) :
    (retrieve index q retrieval_k).length ≤ 6 ∧
    List.Sorted (· ≤ ·)
      (((rankedEntries index q).take retrieval_k).map (fun e => sqDist e.2 q)) ∧
    retrieve index q retrieval_k =
      ((rankedEntries index q).take retrieval_k).map Prod.fst := by
  refine ⟨?_, ?_, rfl⟩
  · rw [retrieve, List.length_map]
    calc ((rankedEntries index q).take retrieval_k).length ≤ retrieval_k :=
          List.length_take_le retrieval_k _
      _ = 6 := rfl
  · haveI : IsTotal (Chunk × List Int)
        (fun a b => sqDist a.2 q ≤ sqDist b.2 q) :=
      ⟨fun a b => le_total _ _⟩
    haveI : IsTrans (Chunk × List Int)
        (fun a b => sqDist a.2 q ≤ sqDist b.2 q) :=
      ⟨fun _ _ _ hab hbc => le_trans hab hbc⟩
    have hsorted : List.Sorted (fun a b => sqDist a.2 q ≤ sqDist b.2 q)
        (rankedEntries index q) :=
      List.sorted_insertionSort _ index.entries
    have htake := hsorted.sublist (List.take_sublist retrieval_k _)
    exact (List.pairwise_map).mpr htake
